import Mathlib

/-!
Verification of the Sudoku solver (`sudoku.py`).

The solver stores a puzzle as a mapping from 81 cells (keys `'A1'..'I9'`,
inserted in row-major order) to candidate strings over the digit characters
`'1'..'9'`.  We embed this as `Grid`: a list of 81 candidate lists in the
same row-major order (cell `9*r+c` is row `r`, column `c`), a candidate
string such as `'459'` becoming the list `[4,5,9]`.  Python-2 dict iteration
is modelled as iteration in key-insertion order, i.e. row-major cell order,
and iteration over the frequency dictionary built in `simplify_area` as
first-occurrence order of the distinct values.
-/

/-- The grid: 81 candidate lists in row-major cell order. -/
abbrev Grid := List (List Nat)

/-- The full candidate set `'123456789'`. -/
def full9 : List Nat := [1, 2, 3, 4, 5, 6, 7, 8, 9]

/-- Characters kept by the stripping step `re.sub(r'[^0-9\.]', '', puzzle)`:
digits `'0'..'9'` and the placeholder `'.'`. -/
def keepChar (c : Char) : Bool := ('0' ≤ c && c ≤ '9') || c == '.'

/-- Initial candidate list of one input character (`__init__`, lines 27-30):
`'0'` and `'.'` give the full set, a digit gives itself. -/
def charOptions (c : Char) : List Nat :=
  if c = '0' ∨ c = '.' then full9 else [c.toNat - 48]

/-- `Sudoku.__init__` on a string: strip, require 81 characters
(else `ValueError`, modelled as `none`), then fill cells in row-major order. -/
def construct (s : String) : Option Grid :=
  let p := s.toList.filter keepChar
  if p.length = 81 then some (p.map charOptions) else none

/-- `Sudoku.complexity`: the length of the concatenation of all 81 candidate
strings, i.e. the total number of candidates over all cells. -/
def complexity (g : Grid) : Nat := (g.map List.length).sum

/-- `Sudoku.solved`: `complexity() == 81`. -/
def solved (g : Grid) : Bool := complexity g == 81

/-- The cells of row `r` (area `__process_area(row, '123456789')`). -/
def rowCells (r : Nat) : List Nat := (List.range 9).map (fun c => 9 * r + c)

/-- The cells of column `c` (area `__process_area('ABCDEFGHI', col)`). -/
def colCells (c : Nat) : List Nat := (List.range 9).map (fun r => 9 * r + c)

/-- The cells of the 3x3 box with band `br` and stack `bc`, row-major,
as built by `__process_area(rows, cols)`. -/
def boxCells (br bc : Nat) : List Nat :=
  ((List.range 3).map (fun i =>
    (List.range 3).map (fun j => 9 * (3 * br + i) + (3 * bc + j)))).flatten

/-- All 27 areas in the order `__process_areas` visits them:
rows `A..I`, then columns `1..9`, then boxes band-major. -/
def allAreas : List (List Nat) :=
  (List.range 9).map rowCells ++ (List.range 9).map colCells ++
    ((List.range 3).map (fun br =>
      (List.range 3).map (fun bc => boxCells br bc))).flatten

/-- The candidate lists of an area's cells, in area order (the `area` dict
built by `__process_area`). -/
def areaVals (g : Grid) (a : List Nat) : List (List Nat) :=
  a.map (fun c => g.getD c [])

/-- The distinct values of a list, in first-occurrence order (the keys of the
`options` dict built with `setdefault` in `simplify_area`). -/
def distinctVals : List (List Nat) → List (List Nat)
  | [] => []
  | v :: vs => v :: (distinctVals vs).filter (· ≠ v)

/-- The `options` frequency dict of `simplify_area`: each distinct value of
the area paired with the number of area cells currently holding exactly it. -/
def tally (vs : List (List Nat)) : List (List Nat × Nat) :=
  (distinctVals vs).map (fun v => (v, vs.count v))

/-- One iteration of the elimination loop of `simplify_area` (lines 88-94):
if the cell's *current* candidate list differs from `v`, remove all digits
of `v` from it (the char-by-char `replace`), else leave it alone. -/
def elimStep (v : List Nat) (h : Grid) (loc : Nat) : Grid :=
  let cur := h.getD loc []
  if cur ≠ v then h.set loc (cur.filter (fun d => decide (d ∉ v))) else h

/-- The `for loc in area.keys()` elimination loop for one proven value `v`. -/
def eliminate (g : Grid) (v : List Nat) (a : List Nat) : Grid :=
  a.foldl (elimStep v) g

/-- The `for option, freq in options.iteritems()` loop of `simplify_area`:
`|v| == freq` eliminates, `|v| < freq` raises `SudokuException`
(modelled as `none`), `|v| > freq` does nothing. -/
def optionsFold : List (List Nat × Nat) → List Nat → Grid → Option Grid
  | [], _, g => some g
  | (v, freq) :: rest, a, g =>
    if v.length = freq then optionsFold rest a (eliminate g v a)
    else if v.length < freq then none
    else optionsFold rest a g

/-- `simplify_area` applied to one area of the grid. -/
def simplifyArea (g : Grid) (a : List Nat) : Option Grid :=
  optionsFold (tally (areaVals g a)) a g

/-- `__process_areas(simplify_area)` over a list of areas; an exception
aborts the remaining areas. -/
def processAreasGo : List (List Nat) → Grid → Option Grid
  | [], g => some g
  | a :: rest, g =>
    match simplifyArea g a with
    | none => none
    | some g' => processAreasGo rest g'

/-- One full propagation pass: `simplify_area` over all 27 areas. -/
def processAreas (g : Grid) : Option Grid := processAreasGo allAreas g

/-- The `while before != after` loop of `simplify` unrolled with explicit
fuel: run passes until one leaves `complexity` unchanged.  The fuel
`complexity g + 1` used by `simplify` is always sufficient because each
continuing pass strictly decreases `complexity` (see `loopSimpF_fuel`). -/
def loopSimpF : Nat → Grid → Option Grid
  | 0, _ => none
  | k + 1, g =>
    match processAreas g with
    | none => none
    | some g' => if complexity g' = complexity g then some g' else loopSimpF k g'

/-- `Sudoku.simplify`: repeat passes while complexity changes (the initial
`before = 0` means no pass at all runs when `complexity g = 0`), then return
`solved()` alongside the final grid; `none` models the propagated
`SudokuException`. -/
def simplify (g : Grid) : Option (Bool × Grid) :=
  if complexity g = 0 then some (solved g, g)
  else (loopSimpF (complexity g + 1) g).map (fun g' => (solved g', g'))

/-- The grid of claim C4/C5's failing input: rows `A..H` unconstrained,
row `I` determined as `1..9`. -/
def twinFree : Grid :=
  (List.range 81).map (fun i => if i < 72 then full9 else [i - 71])

/-- A grid constructed with cells `(r, c1)` and `(r, c2)` both determined to
digit `d` and every other cell unconstrained. -/
def mkTwin (r c1 c2 d : Nat) : Grid :=
  (List.range 81).map (fun i =>
    if i = 9 * r + c1 ∨ i = 9 * r + c2 then [d] else full9)

/-- The branch-cell scan of `solve` (lines 107-110): `cell, options` are
overwritten by each iterated item; `break` on the first item whose candidate
list has length `i`; with no break they stay at the last item.  (The source
initialises them to `None, ()`; on the 81-cell grids the solver uses the
dict is never empty, and `(0, [])` models the empty case harmlessly since an
empty `options` skips the trial loop just as `()` does.) -/
def scanGo : List (Nat × List Nat) → Nat → Nat × List Nat
  | [], _ => (0, [])
  | [p], _ => p
  | p :: q :: ps, i => if p.2.length = i then p else scanGo (q :: ps) i

/-- Scan the grid in iteration (row-major) order for the branch cell. -/
def scan (g : Grid) (i : Nat) : Nat × List Nat := scanGo g.enum i

/-- Result of a (fuelled) run of `solve`: `out` means the recursion budget
was exhausted (the run is abandoned), `contra` a `SudokuException` escaping
the call, `done b g` a normal return of `b` with final grid state `g`. -/
inductive SolveRes : Type where
  | out : SolveRes
  | contra : SolveRes
  | done : Bool → Grid → SolveRes
deriving DecidableEq, Repr

mutual

/-- `Sudoku.solve`, with fuel bounding the depth of recursive `solve` calls;
alongside the result we log every trial assignment `trial[cell] = option`
made directly by this call or any recursive call, as `(cell, digit)` pairs. -/
def solveAux : Nat → Grid → SolveRes × List (Nat × Nat)
  | 0, _ => (.out, [])
  | n + 1, g =>
    match simplify g with
    | none => (.contra, [])
    | some (true, g₁) => (.done true g₁, [])
    | some (false, g₁) => solveLoop n g₁ 0 [] [2, 3, 4, 5, 6, 7, 8, 9]

/-- The nested `for i in range(2, 10)` / `for option in options` loops of
`solve` (lines 106-122): `is` holds the remaining ambiguity levels, `os` the
options of the currently selected `cell` still to try.  A trial that
succeeds is adopted wholesale; one that raises removes the digit from the
original grid and re-simplifies; one that returns `False` just moves on;
when everything is exhausted the final `return self.solved()` runs. -/
def solveLoop : Nat → Grid → Nat → List Nat → List Nat → SolveRes × List (Nat × Nat)
  | _, g, _, [], [] => (.done (solved g) g, [])
  | n, g, _, [], i :: is =>
    let p := scan g i
    solveLoop n g p.1 p.2 is
  | n, g, cell, o :: os, is =>
    let trial := g.set cell [o]
    match solveAux n trial with
    | (.done true t, l) => (.done true t, (cell, o) :: l)
    | (.done false _, l) =>
      let r := solveLoop n g cell os is
      (r.1, (cell, o) :: (l ++ r.2))
    | (.out, l) => (.out, (cell, o) :: l)
    | (.contra, l) =>
      let g' := g.set cell ((g.getD cell []).filter (fun d => decide (d ≠ o)))
      match simplify g' with
      | none => (.contra, (cell, o) :: l)
      | some (true, g₂) => (.done true g₂, (cell, o) :: l)
      | some (false, g₂) =>
        let r := solveLoop n g₂ cell os is
        (r.1, (cell, o) :: (l ++ r.2))

end

/-- The propagation fixpoint actually reached from `twinFree` (checked by
`simplify_twinFree` below): rows `A..F` keep 8 candidates per cell (only the
column digit is eliminated), rows `G..H` keep 6 (column digit and box
digits), row `I` stays determined. -/
def gfix : Grid := [
  [2, 3, 4, 5, 6, 7, 8, 9], [1, 3, 4, 5, 6, 7, 8, 9], [1, 2, 4, 5, 6, 7, 8, 9],
  [1, 2, 3, 5, 6, 7, 8, 9], [1, 2, 3, 4, 6, 7, 8, 9], [1, 2, 3, 4, 5, 7, 8, 9],
  [1, 2, 3, 4, 5, 6, 8, 9], [1, 2, 3, 4, 5, 6, 7, 9], [1, 2, 3, 4, 5, 6, 7, 8],
  [2, 3, 4, 5, 6, 7, 8, 9], [1, 3, 4, 5, 6, 7, 8, 9], [1, 2, 4, 5, 6, 7, 8, 9],
  [1, 2, 3, 5, 6, 7, 8, 9], [1, 2, 3, 4, 6, 7, 8, 9], [1, 2, 3, 4, 5, 7, 8, 9],
  [1, 2, 3, 4, 5, 6, 8, 9], [1, 2, 3, 4, 5, 6, 7, 9], [1, 2, 3, 4, 5, 6, 7, 8],
  [2, 3, 4, 5, 6, 7, 8, 9], [1, 3, 4, 5, 6, 7, 8, 9], [1, 2, 4, 5, 6, 7, 8, 9],
  [1, 2, 3, 5, 6, 7, 8, 9], [1, 2, 3, 4, 6, 7, 8, 9], [1, 2, 3, 4, 5, 7, 8, 9],
  [1, 2, 3, 4, 5, 6, 8, 9], [1, 2, 3, 4, 5, 6, 7, 9], [1, 2, 3, 4, 5, 6, 7, 8],
  [2, 3, 4, 5, 6, 7, 8, 9], [1, 3, 4, 5, 6, 7, 8, 9], [1, 2, 4, 5, 6, 7, 8, 9],
  [1, 2, 3, 5, 6, 7, 8, 9], [1, 2, 3, 4, 6, 7, 8, 9], [1, 2, 3, 4, 5, 7, 8, 9],
  [1, 2, 3, 4, 5, 6, 8, 9], [1, 2, 3, 4, 5, 6, 7, 9], [1, 2, 3, 4, 5, 6, 7, 8],
  [2, 3, 4, 5, 6, 7, 8, 9], [1, 3, 4, 5, 6, 7, 8, 9], [1, 2, 4, 5, 6, 7, 8, 9],
  [1, 2, 3, 5, 6, 7, 8, 9], [1, 2, 3, 4, 6, 7, 8, 9], [1, 2, 3, 4, 5, 7, 8, 9],
  [1, 2, 3, 4, 5, 6, 8, 9], [1, 2, 3, 4, 5, 6, 7, 9], [1, 2, 3, 4, 5, 6, 7, 8],
  [2, 3, 4, 5, 6, 7, 8, 9], [1, 3, 4, 5, 6, 7, 8, 9], [1, 2, 4, 5, 6, 7, 8, 9],
  [1, 2, 3, 5, 6, 7, 8, 9], [1, 2, 3, 4, 6, 7, 8, 9], [1, 2, 3, 4, 5, 7, 8, 9],
  [1, 2, 3, 4, 5, 6, 8, 9], [1, 2, 3, 4, 5, 6, 7, 9], [1, 2, 3, 4, 5, 6, 7, 8],
  [4, 5, 6, 7, 8, 9], [4, 5, 6, 7, 8, 9], [4, 5, 6, 7, 8, 9],
  [1, 2, 3, 7, 8, 9], [1, 2, 3, 7, 8, 9], [1, 2, 3, 7, 8, 9],
  [1, 2, 3, 4, 5, 6], [1, 2, 3, 4, 5, 6], [1, 2, 3, 4, 5, 6],
  [4, 5, 6, 7, 8, 9], [4, 5, 6, 7, 8, 9], [4, 5, 6, 7, 8, 9],
  [1, 2, 3, 7, 8, 9], [1, 2, 3, 7, 8, 9], [1, 2, 3, 7, 8, 9],
  [1, 2, 3, 4, 5, 6], [1, 2, 3, 4, 5, 6], [1, 2, 3, 4, 5, 6],
  [1], [2], [3],
  [4], [5], [6],
  [7], [8], [9]]

/-- Counterexample grid for claim C2: row `A` starts `[1], [2], [1,2]`,
everything else unconstrained. -/
def g2 : Grid := [[1], [2], [1, 2]] ++ List.replicate 78 full9

/-- Counterexample grid for claim C6: row `A` starts `[1], [1,2], [1,2]`,
everything else unconstrained; one `simplify_area` call on row `A` stores
empty candidate sets in the first three cells without failing. -/
def g6 : Grid := [[1], [1, 2], [1, 2]] ++ List.replicate 78 full9

/-- The result of the row-`A` pass on `g6` (with cells `A1..A3` emptied). -/
def g6after : Grid := (simplifyArea g6 (rowCells 0)).getD []

/-- Claim C2 as stated: in a pass over an area, every distinct value `v`
whose size equals its frequency has its digits removed from every other cell
of the area whose candidate set (as grouped, i.e. at the start of the pass)
is not equal to `v`. -/
def NakedSubsetClaim : Prop :=
  ∀ (g : Grid) (a : List Nat) (g' : Grid), simplifyArea g a = some g' →
    ∀ v ∈ areaVals g a, v.length = (areaVals g a).count v →
      ∀ c ∈ a, g.getD c [] ≠ v → ∀ d ∈ v, ¬ d ∈ g'.getD c []

/-- The elimination for one proven value `v`, as described by the (amended)
specification: simultaneously, every cell of the area whose current
candidate set is not equal to `v` loses every digit of `v`. -/
def applyNaked (a : List Nat) (v : List Nat) (g : Grid) : Grid :=
  g.mapIdx (fun i cur =>
    if i ∈ a ∧ cur ≠ v then cur.filter (fun d => decide (d ∉ v)) else cur)

/-- The amended-specification reading of the per-area rule: the distinct
values are processed sequentially with their pass-start frequencies;
`|v| < freq v` is a contradiction, `|v| = freq v` eliminates against the
current grid, `|v| > freq v` does nothing. -/
def nakedSeq : List (List Nat × Nat) → List Nat → Grid → Option Grid
  | [], _, g => some g
  | (v, freq) :: rest, a, g =>
    if v.length < freq then none
    else if v.length = freq then nakedSeq rest a (applyNaked a v g)
    else nakedSeq rest a g

/-- The per-area rule as the amended specification words it. -/
def simplifyAreaSpec (g : Grid) (a : List Nat) : Option Grid :=
  nakedSeq (tally (areaVals g a)) a g

/-- Well-formed grid: 81 cells whose candidates all lie in `1..9`. -/
def WFGrid (g : Grid) : Prop :=
  g.length = 81 ∧ ∀ v ∈ g, ∀ d ∈ v, 1 ≤ d ∧ d ≤ 9

/-- Every row, column and 3x3 box of `g` contains each digit `1..9` in
exactly one cell's candidate set. -/
def areasOnce (g : Grid) : Prop :=
  ∀ a ∈ allAreas, ∀ d, 1 ≤ d → d ≤ 9 →
    a.countP (fun c => decide (d ∈ g.getD c [])) = 1

/-- The nine singleton digit lists, in order. -/
def singletonDigits : List (List Nat) :=
  [[1], [2], [3], [4], [5], [6], [7], [8], [9]]

/-- An already-solved grid (row `r`, column `c` holds
`(3*(r mod 3) + r/3 + c) mod 9 + 1`), used to witness claim C1. -/
def solvedW : Grid :=
  (List.range 81).map (fun i =>
    [(3 * ((i / 9) % 3) + (i / 9) / 3 + i % 9) % 9 + 1])

/-- A demonstration input for the construction claims: a placeholder dot, a
space, a zero, a newline, then 79 copies of the digit five. -/
def demoS : String := String.mk (['.', ' ', '0', '\n'] ++ List.replicate 79 '5')

/-- The grid built from `demoS`. -/
def demoG : Grid := (construct demoS).getD []

/-- The row-`A` pass result on the claim-C2 grid `g2`. -/
def sg2 : Grid := (simplifyArea g2 (rowCells 0)).getD []

/-- Claim C6 as stated: starting from a grid with no empty cell, no
`simplify_area` call (no intermediate point of propagation) can return
normally having stored an empty candidate set. -/
def NoEmptyStored : Prop :=
  ∀ (g : Grid) (a : List Nat) (g' : Grid), (∀ v ∈ g, v ≠ []) →
    simplifyArea g a = some g' → ∀ v ∈ g', v ≠ []

/-- The 81-character puzzle text whose grid is `twinFree`: rows `A..H`
unknown, row `I` given as `123456789`. -/
def twinStr : String :=
  String.mk (List.replicate 72 '.' ++
    ['1', '2', '3', '4', '5', '6', '7', '8', '9'])

/-! ### Basic cell-access lemmas -/

theorem getD_set_eq {l : Grid} {i : Nat} (v : List Nat) (h : i < l.length) :
    (l.set i v).getD i [] = v := by
  rw [List.getD_eq_getElem?_getD, List.getElem?_set_self h]
  rfl

theorem getD_set_ne {l : Grid} {i j : Nat} (v : List Nat) (h : i ≠ j) :
    (l.set i v).getD j [] = l.getD j [] := by
  rw [List.getD_eq_getElem?_getD, List.getElem?_set_ne h, ← List.getD_eq_getElem?_getD]

theorem getD_range_map {n : Nat} (f : Nat → List Nat) {i : Nat} (h : i < n) :
    (((List.range n).map f).getD i []) = f i := by
  rw [List.getD_eq_getElem?_getD, List.getElem?_map, List.getElem?_range h]
  rfl

theorem getD_mem {l : Grid} {i : Nat} (h : i < l.length) : l.getD i [] ∈ l := by
  rw [List.getD_eq_getElem?_getD, List.getElem?_eq_getElem h]
  exact List.getElem_mem h

/-! ### The pointwise-sublist order on grids

Propagation only ever deletes candidates, so every intermediate grid is
pointwise a sublist of its predecessor.  `GridSub h g` says each cell of `h`
holds a sublist of the same cell of `g`. -/

def GridSub (h g : Grid) : Prop := List.Forall₂ List.Sublist h g

theorem GridSub.rfl {g : Grid} : GridSub g g :=
  List.forall₂_same.2 (fun x _ => List.Sublist.refl x)

theorem GridSub.trans {f g h : Grid} (h₁ : GridSub f g) (h₂ : GridSub g h) :
    GridSub f h := by
  induction h₁ generalizing h with
  | nil => cases h₂; exact List.Forall₂.nil
  | cons hx _ ih =>
    cases h₂ with
    | cons hy hr => exact List.Forall₂.cons (hx.trans hy) (ih hr)

theorem GridSub.length_eq {h g : Grid} (hs : GridSub h g) : h.length = g.length :=
  List.Forall₂.length_eq hs

theorem GridSub.getD {h g : Grid} (hs : GridSub h g) (i : Nat) :
    (h.getD i []).Sublist (g.getD i []) := by
  induction hs generalizing i with
  | nil => exact List.Sublist.refl []
  | cons hx _ ih =>
    cases i with
    | zero => exact hx
    | succ j => exact ih j

theorem GridSub.set {g : Grid} {i : Nat} {x : List Nat}
    (hx : x.Sublist (g.getD i [])) : GridSub (g.set i x) g := by
  induction g generalizing i with
  | nil => exact List.Forall₂.nil
  | cons a l ih =>
    cases i with
    | zero => exact List.Forall₂.cons hx GridSub.rfl
    | succ j => exact List.Forall₂.cons (List.Sublist.refl a) (ih hx)

theorem GridSub.mem {h g : Grid} (hs : GridSub h g) {v : List Nat} (hv : v ∈ h) :
    ∃ w ∈ g, v.Sublist w := by
  induction hs with
  | nil => cases hv
  | cons hx _ ih =>
    rcases List.mem_cons.1 hv with rfl | hv'
    · exact ⟨_, List.mem_cons_self _ _, hx⟩
    · rcases ih hv' with ⟨w, hw, hsub⟩
      exact ⟨w, List.mem_cons_of_mem _ hw, hsub⟩

theorem GridSub.complexity_le {h g : Grid} (hs : GridSub h g) :
    complexity h ≤ complexity g := by
  induction hs with
  | nil => exact Nat.le_refl 0
  | cons hx _ ih =>
    simpa [complexity] using Nat.add_le_add hx.length_le ih

theorem GridSub.eq_of_complexity {h g : Grid} (hs : GridSub h g)
    (hc : complexity h = complexity g) : h = g := by
  induction hs with
  | nil => rfl
  | @cons a b l₁ l₂ hx hr ih =>
    have h1 := hx.length_le
    have h2 := GridSub.complexity_le hr
    simp only [complexity, List.map_cons, List.sum_cons] at hc
    simp only [complexity] at h2
    have hlen : a.length = b.length := by omega
    have hsum : complexity l₁ = complexity l₂ := by
      simp only [complexity]; omega
    rw [hx.eq_of_length hlen, ih hsum]

theorem complexity_eq_zero {g : Grid} : complexity g = 0 ↔ ∀ v ∈ g, v = [] := by
  simp [complexity, List.sum_eq_zero_iff, List.length_eq_zero]

/-! ### Elimination and per-area lemmas -/

theorem elimStep_sub (v : List Nat) (h : Grid) (loc : Nat) :
    GridSub (elimStep v h loc) h := by
  simp only [elimStep]
  split
  · exact GridSub.set (List.filter_sublist _)
  · exact GridSub.rfl

theorem eliminate_sub (g : Grid) (v : List Nat) (a : List Nat) :
    GridSub (eliminate g v a) g := by
  induction a generalizing g with
  | nil => exact GridSub.rfl
  | cons loc rest ih =>
    exact GridSub.trans (ih (elimStep v g loc)) (elimStep_sub v g loc)

theorem optionsFold_sub {entries : List (List Nat × Nat)} {a : List Nat}
    {g g' : Grid} (h : optionsFold entries a g = some g') : GridSub g' g := by
  induction entries generalizing g with
  | nil =>
    simp only [optionsFold] at h
    cases h
    exact GridSub.rfl
  | cons p rest ih =>
    rcases p with ⟨v, freq⟩
    simp only [optionsFold] at h
    split at h
    · exact GridSub.trans (ih h) (eliminate_sub g v a)
    · split at h
      · cases h
      · exact ih h

theorem simplifyArea_sub {g g' : Grid} {a : List Nat}
    (h : simplifyArea g a = some g') : GridSub g' g :=
  optionsFold_sub h

theorem optionsFold_none_of_mem {entries : List (List Nat × Nat)}
    {a : List Nat} {v : List Nat} {f : Nat} (hm : (v, f) ∈ entries)
    (hlt : v.length < f) : ∀ g, optionsFold entries a g = none := by
  induction entries with
  | nil => cases hm
  | cons p rest ih =>
    intro g
    rcases p with ⟨w, fw⟩
    rcases List.mem_cons.1 hm with heq | hm'
    · cases heq
      simp only [optionsFold]
      rw [if_neg (by omega), if_pos hlt]
    · simp only [optionsFold]
      split
      · exact ih hm' _
      · split
        · rfl
        · exact ih hm' _

theorem optionsFold_some_not_lt {entries : List (List Nat × Nat)}
    {a : List Nat} {g g' : Grid} (h : optionsFold entries a g = some g')
    {v : List Nat} {f : Nat} (hm : (v, f) ∈ entries) : ¬ v.length < f := by
  intro hlt
  rw [optionsFold_none_of_mem hm hlt g] at h
  cases h

theorem mem_distinctVals {l : List (List Nat)} {x : List Nat} :
    x ∈ distinctVals l ↔ x ∈ l := by
  induction l with
  | nil => simp [distinctVals]
  | cons v vs ih =>
    simp only [distinctVals, List.mem_cons, List.mem_filter]
    constructor
    · rintro (rfl | ⟨hx, _⟩)
      · exact Or.inl rfl
      · exact Or.inr (ih.1 hx)
    · rintro (rfl | hx)
      · exact Or.inl rfl
      · by_cases hxv : x = v
        · exact Or.inl hxv
        · exact Or.inr ⟨ih.2 hx, by simpa using hxv⟩

theorem tally_mem {vs : List (List Nat)} {x : List Nat} (hx : x ∈ vs) :
    (x, vs.count x) ∈ tally vs :=
  List.mem_map.2 ⟨x, mem_distinctVals.2 hx, rfl⟩

theorem simplifyArea_none_of_empty {g : Grid} {a : List Nat} {c : Nat}
    (hc : c ∈ a) (he : g.getD c [] = []) : simplifyArea g a = none := by
  have hmem : ([] : List Nat) ∈ areaVals g a :=
    List.mem_map.2 ⟨c, hc, he⟩
  have hcount : 0 < (areaVals g a).count ([] : List Nat) :=
    List.count_pos_iff_mem.2 hmem
  exact optionsFold_none_of_mem (tally_mem hmem) (by simpa using hcount) g

theorem elimStep_getD_ne {v : List Nat} {h : Grid} {loc c : Nat}
    (hne : loc ≠ c) : (elimStep v h loc).getD c [] = h.getD c [] := by
  simp only [elimStep]
  split
  · exact getD_set_ne _ hne
  · rfl

theorem eliminate_getD_not_mem {g : Grid} {v : List Nat} {a : List Nat}
    {c : Nat} (hc : ¬ c ∈ a) : (eliminate g v a).getD c [] = g.getD c [] := by
  induction a generalizing g with
  | nil => rfl
  | cons loc rest ih =>
    have h1 : ¬ c ∈ rest := fun h => hc (List.mem_cons_of_mem _ h)
    have h2 : loc ≠ c := fun h => hc (h ▸ List.mem_cons_self _ _)
    calc (eliminate (elimStep v g loc) v rest).getD c []
        = (elimStep v g loc).getD c [] := ih h1
      _ = g.getD c [] := elimStep_getD_ne h2

theorem optionsFold_getD_not_mem {entries : List (List Nat × Nat)}
    {a : List Nat} {g g' : Grid} (h : optionsFold entries a g = some g')
    {c : Nat} (hc : ¬ c ∈ a) : g'.getD c [] = g.getD c [] := by
  induction entries generalizing g with
  | nil =>
    simp only [optionsFold] at h
    cases h; rfl
  | cons p rest ih =>
    rcases p with ⟨v, freq⟩
    simp only [optionsFold] at h
    split at h
    · rw [ih h, eliminate_getD_not_mem hc]
    · split at h
      · cases h
      · exact ih h

theorem simplifyArea_getD_not_mem {g g' : Grid} {a : List Nat}
    (h : simplifyArea g a = some g') {c : Nat} (hc : ¬ c ∈ a) :
    g'.getD c [] = g.getD c [] :=
  optionsFold_getD_not_mem h hc

/-! ### Pass-level and loop-level lemmas -/

theorem processAreasGo_sub {L : List (List Nat)} {g g' : Grid}
    (h : processAreasGo L g = some g') : GridSub g' g := by
  induction L generalizing g with
  | nil =>
    simp only [processAreasGo] at h
    cases h
    exact GridSub.rfl
  | cons a rest ih =>
    simp only [processAreasGo] at h
    rcases ha : simplifyArea g a with _ | g₁
    · rw [ha] at h; cases h
    · rw [ha] at h
      exact GridSub.trans (ih h) (simplifyArea_sub ha)

theorem processAreas_sub {g g' : Grid} (h : processAreas g = some g') :
    GridSub g' g :=
  processAreasGo_sub h

theorem processAreas_complexity_le {g g' : Grid}
    (h : processAreas g = some g') : complexity g' ≤ complexity g :=
  (processAreas_sub h).complexity_le

theorem processAreasGo_fix {L : List (List Nat)} {g : Grid}
    (h : processAreasGo L g = some g) : ∀ a ∈ L, simplifyArea g a = some g := by
  induction L with
  | nil => intro a ha; cases ha
  | cons a rest ih =>
    intro b hb
    have h' := h
    simp only [processAreasGo] at h'
    rcases ha : simplifyArea g a with _ | g₁
    · rw [ha] at h'; cases h'
    · rw [ha] at h'
      have hsub₁ : GridSub g₁ g := simplifyArea_sub ha
      have hsub₂ : GridSub g g₁ := processAreasGo_sub h'
      have hg₁ : g₁ = g :=
        hsub₁.eq_of_complexity
          (Nat.le_antisymm hsub₁.complexity_le hsub₂.complexity_le)
    -- with the step an identity, both the head and the tail give the claim
      rcases List.mem_cons.1 hb with rfl | hb'
      · rw [ha, hg₁]
      · exact ih (hg₁ ▸ h') b hb'

theorem loopSimpF_succ (k : Nat) (g : Grid) :
    loopSimpF (k + 1) g =
      match processAreas g with
      | none => none
      | some g₁ =>
        if complexity g₁ = complexity g then some g₁ else loopSimpF k g₁ := rfl

theorem loopSimpF_sub {k : Nat} {g g' : Grid}
    (h : loopSimpF k g = some g') : GridSub g' g := by
  induction k generalizing g with
  | zero => cases h
  | succ k ih =>
    rw [loopSimpF_succ] at h
    rcases hp : processAreas g with _ | g₁
    · simp only [hp] at h
      cases h
    · simp only [hp] at h
      by_cases hc : complexity g₁ = complexity g
      · rw [if_pos hc] at h
        cases h
        exact processAreas_sub hp
      · rw [if_neg hc] at h
        exact GridSub.trans (ih h) (processAreas_sub hp)

theorem loopSimpF_fix {k : Nat} {g g' : Grid}
    (h : loopSimpF k g = some g') : processAreas g' = some g' := by
  induction k generalizing g with
  | zero => cases h
  | succ k ih =>
    rw [loopSimpF_succ] at h
    rcases hp : processAreas g with _ | g₁
    · simp only [hp] at h
      cases h
    · simp only [hp] at h
      by_cases hc : complexity g₁ = complexity g
      · rw [if_pos hc] at h
        cases h
        have hg : g' = g := (processAreas_sub hp).eq_of_complexity hc
        rw [hg] at hp ⊢
        exact hp
      · rw [if_neg hc] at h
        exact ih h

/-- The fuel `complexity g + 1` passed by `simplify` is always enough:
any two sufficient fuels agree, because every continuing pass strictly
decreases `complexity`. -/
theorem loopSimpF_fuel {k : Nat} {g : Grid} (hk : complexity g < k) (k' : Nat)
    (hk' : complexity g < k') : loopSimpF k g = loopSimpF k' g := by
  induction k generalizing g k' with
  | zero => omega
  | succ k ih =>
    rcases k' with _ | k''
    · omega
    · rw [loopSimpF_succ, loopSimpF_succ]
      rcases hp : processAreas g with _ | g₁
      · rfl
      · simp only []
        by_cases hc : complexity g₁ = complexity g
        · rw [if_pos hc, if_pos hc]
        · rw [if_neg hc, if_neg hc]
          have hle := processAreas_complexity_le hp
          exact ih (by omega) k'' (by omega)

theorem simplify_eq_some {g : Grid} {b : Bool} {g' : Grid}
    (h : simplify g = some (b, g')) :
    b = solved g' ∧ GridSub g' g ∧
      (complexity g = 0 ∧ g' = g ∨ processAreas g' = some g') := by
  unfold simplify at h
  split at h
  · rename_i hc
    cases h
    exact ⟨rfl, GridSub.rfl, Or.inl ⟨hc, rfl⟩⟩
  · rcases hl : loopSimpF (complexity g + 1) g with _ | g₁
    · rw [hl] at h; cases h
    · rw [hl] at h
      cases h
      exact ⟨rfl, loopSimpF_sub hl, Or.inr (loopSimpF_fix hl)⟩

/-! ### Empty cells force failure on the next pass -/

theorem mem_rowCells_self {c : Nat} (h : c < 81) : c ∈ rowCells (c / 9) := by
  simp only [rowCells, List.mem_map, List.mem_range]
  exact ⟨c % 9, by omega, by omega⟩

theorem rowCells_mem_allAreas {r : Nat} (h : r < 9) : rowCells r ∈ allAreas := by
  simp only [allAreas, List.mem_append]
  exact Or.inl (Or.inl (List.mem_map.2 ⟨r, List.mem_range.2 h, rfl⟩))

theorem processAreasGo_none_of_empty {L : List (List Nat)} {g : Grid} {c : Nat}
    (hL : ∃ a ∈ L, c ∈ a) (he : g.getD c [] = []) :
    processAreasGo L g = none := by
  induction L generalizing g with
  | nil => rcases hL with ⟨a, ha, _⟩; cases ha
  | cons a rest ih =>
    rcases hL with ⟨b, hb, hcb⟩
    simp only [processAreasGo]
    rcases List.mem_cons.1 hb with rfl | hb'
    · rw [simplifyArea_none_of_empty hcb he]
    · rcases ha : simplifyArea g a with _ | g₁
      · rfl
      · by_cases hca : c ∈ a
        · rw [simplifyArea_none_of_empty hca he] at ha
          cases ha
        · exact ih ⟨b, hb', hcb⟩ ((simplifyArea_getD_not_mem ha hca).trans he)

theorem processAreas_none_of_empty {g : Grid} {c : Nat} (hc : c < 81)
    (he : g.getD c [] = []) : processAreas g = none :=
  processAreasGo_none_of_empty
    ⟨rowCells (c / 9), rowCells_mem_allAreas (by omega), mem_rowCells_self hc⟩ he

/-- If `simplify` returns normally from a grid with 81 cells not all of them
empty, the result has no empty cell: the final pass would have raised on one. -/
theorem simplify_nonempty {g : Grid} {b : Bool} {g' : Grid}
    (hlen : g.length = 81) (h : simplify g = some (b, g'))
    (hc : complexity g ≠ 0) : ∀ v ∈ g', v ≠ [] := by
  rcases simplify_eq_some h with ⟨_, hsub, hfix⟩
  rcases hfix with ⟨hc0, _⟩ | hfix
  · exact absurd hc0 hc
  · intro v hv hve
    rcases List.mem_iff_getElem.1 hv with ⟨i, hi, hgi⟩
    have hi81 : i < 81 := by
      have := hsub.length_eq
      omega
    have hgd : g'.getD i [] = [] := by
      rw [List.getD_eq_getElem?_getD, List.getElem?_eq_getElem hi, hgi, hve]
      rfl
    rw [processAreas_none_of_empty hi81 hgd] at hfix
    cases hfix

/-! ### Idempotence of `simplify` -/

theorem simplify_idem {g : Grid} {p : Bool × Grid} (h : simplify g = some p) :
    simplify p.2 = some p := by
  rcases p with ⟨b, g'⟩
  rcases simplify_eq_some h with ⟨hb, _, hfix⟩
  rcases hfix with ⟨hc0, rfl⟩ | hfix
  · simpa [simplify, hc0, hb]
  · unfold simplify
    by_cases hc : complexity g' = 0
    · rw [if_pos hc, hb]
    · rw [if_neg hc]
      rw [loopSimpF_succ, hfix]
      simp [hb]

/-! ### A solved propagation fixpoint is a valid Sudoku solution -/

theorem length_le_sum_lengths {l : List (List Nat)} (h : ∀ v ∈ l, v ≠ []) :
    l.length ≤ (l.map List.length).sum := by
  induction l with
  | nil => exact Nat.le_refl 0
  | cons a t ih =>
    have ha : 1 ≤ a.length :=
      Nat.one_le_iff_ne_zero.2 fun h0 =>
        h a (List.mem_cons_self a t) (List.length_eq_zero.1 h0)
    have ht := ih (fun v hv => h v (List.mem_cons_of_mem _ hv))
    simp only [List.length_cons, List.map_cons, List.sum_cons]
    omega

theorem all_singleton_of_sum_eq {l : List (List Nat)} (h : ∀ v ∈ l, v ≠ [])
    (hs : (l.map List.length).sum = l.length) : ∀ v ∈ l, v.length = 1 := by
  induction l with
  | nil => intro v hv; cases hv
  | cons a t ih =>
    have ha : 1 ≤ a.length :=
      Nat.one_le_iff_ne_zero.2 fun h0 =>
        h a (List.mem_cons_self a t) (List.length_eq_zero.1 h0)
    have ht := length_le_sum_lengths (fun v hv => h v (List.mem_cons_of_mem _ hv))
    simp only [List.map_cons, List.sum_cons, List.length_cons] at hs
    intro v hv
    rcases List.mem_cons.1 hv with rfl | hv'
    · omega
    · exact ih (fun w hw => h w (List.mem_cons_of_mem _ hw)) (by omega) v hv'

theorem allAreas_cells_lt : ∀ a ∈ allAreas, ∀ c ∈ a, c < 81 := by decide

theorem allAreas_length : ∀ a ∈ allAreas, a.length = 9 := by decide

theorem singleton_mem_digits {d : Nat} (h1 : 1 ≤ d) (h9 : d ≤ 9) :
    [d] ∈ singletonDigits := by
  interval_cases d <;> decide

theorem countP_singletonDigits {d : Nat} (h1 : 1 ≤ d) (h9 : d ≤ 9) :
    singletonDigits.countP (fun v => decide (v = [d])) = 1 := by
  interval_cases d <;> decide

theorem nodup_of_count_le_one {l : List (List Nat)}
    (h : ∀ x, l.count x ≤ 1) : l.Nodup := by
  induction l with
  | nil => exact List.nodup_nil
  | cons x t ih =>
    refine List.Nodup.cons ?_ (ih ?_)
    · intro hx
      have h1 := h x
      rw [List.count_cons_self] at h1
      have h2 : 0 < t.count x := List.count_pos_iff_mem.2 hx
      omega
    · intro y
      have := h y
      rw [List.count_cons] at this
      split at this <;> omega

theorem fixpoint_sound {g : Grid} (hlen : g.length = 81)
    (hdig : ∀ v ∈ g, ∀ d ∈ v, 1 ≤ d ∧ d ≤ 9)
    (hfix : ∀ a ∈ allAreas, simplifyArea g a = some g)
    (hc : complexity g = 81) :
    (∀ v ∈ g, v.length = 1) ∧ areasOnce g := by
  have hnon : ∀ v ∈ g, v ≠ [] := by
    intro v hv hve
    rcases List.mem_iff_getElem.1 hv with ⟨i, hi, hgi⟩
    have hi81 : i < 81 := hlen ▸ hi
    have hgd : g.getD i [] = [] := by
      rw [List.getD_eq_getElem?_getD, List.getElem?_eq_getElem hi, hgi, hve]
      rfl
    have := hfix (rowCells (i / 9)) (rowCells_mem_allAreas (by omega))
    rw [simplifyArea_none_of_empty (mem_rowCells_self hi81) hgd] at this
    cases this
  have hsing : ∀ v ∈ g, v.length = 1 :=
    all_singleton_of_sum_eq hnon (by rw [← complexity] at *; rw [hc, hlen])
  refine ⟨hsing, ?_⟩
  intro a ha d hd1 hd9
  have hfa := hfix a ha
  have hvals_mem : ∀ v ∈ areaVals g a, v ∈ g := by
    intro v hv
    rcases List.mem_map.1 hv with ⟨c, hca, rfl⟩
    have hc81 : c < 81 := allAreas_cells_lt a ha c hca
    exact getD_mem (by omega)
  have hvals_sing : ∀ v ∈ areaVals g a, v.length = 1 :=
    fun v hv => hsing v (hvals_mem v hv)
  have hcount_le : ∀ x, (areaVals g a).count x ≤ 1 := by
    intro x
    by_cases hx : x ∈ areaVals g a
    · have hle := optionsFold_some_not_lt hfa (tally_mem hx)
      have := hvals_sing x hx
      omega
    · rw [List.count_eq_zero_of_not_mem hx]
      omega
  have hnodup : (areaVals g a).Nodup := nodup_of_count_le_one hcount_le
  have hsubset : areaVals g a ⊆ singletonDigits := by
    intro v hv
    have h1 := hvals_sing v hv
    rcases v with _ | ⟨e, t⟩
    · cases h1
    · rcases t with _ | _
      · have := hdig _ (hvals_mem _ hv) e (List.mem_cons_self e [])
        exact singleton_mem_digits this.1 this.2
      · simp at h1
  have hperm : (areaVals g a).Perm singletonDigits :=
    (List.subperm_of_subset hnodup hsubset).perm_of_length_le
      (by simp [areaVals, allAreas_length a ha, singletonDigits])
  have hcnt : (areaVals g a).countP (fun v => decide (v = [d])) = 1 := by
    rw [hperm.countP_eq]
    exact countP_singletonDigits hd1 hd9
  have hstep : (areaVals g a).countP (fun v => decide (d ∈ v)) =
      (areaVals g a).countP (fun v => decide (v = [d])) := by
    refine List.countP_congr ?_
    intro v hv
    have h1 := hvals_sing v hv
    rcases v with _ | ⟨e, t⟩
    · cases h1
    · rcases t with _ | _
      · simp only [decide_eq_true_eq]
        rw [List.mem_singleton, List.cons.injEq]
        exact ⟨fun h => ⟨h.symm, rfl⟩, fun h => h.1.symm⟩
      · simp at h1
  have hmapped : a.countP (fun c => decide (d ∈ g.getD c [])) =
      (areaVals g a).countP (fun v => decide (d ∈ v)) := by
    rw [areaVals, List.countP_map]
    rfl
  rw [hmapped, hstep, hcnt]

/-! ### Well-formedness is preserved; `simplify` returning `true` is sound -/

theorem solved_iff {g : Grid} : solved g = true ↔ complexity g = 81 := by
  simp [solved]

theorem WFGrid_sub {g g' : Grid} (hw : WFGrid g) (hs : GridSub g' g) :
    WFGrid g' := by
  refine ⟨hs.length_eq.trans hw.1, ?_⟩
  intro v hv d hd
  rcases hs.mem hv with ⟨w, hw', hsub⟩
  exact hw.2 w hw' d (hsub.subset hd)

theorem simplify_WF {g : Grid} {b : Bool} {g' : Grid} (hw : WFGrid g)
    (h : simplify g = some (b, g')) : WFGrid g' :=
  WFGrid_sub hw (simplify_eq_some h).2.1

theorem WF_getD_digits {g : Grid} (hw : WFGrid g) (c : Nat) :
    ∀ d ∈ g.getD c [], 1 ≤ d ∧ d ≤ 9 := by
  intro d hd
  by_cases hc : c < g.length
  · exact hw.2 _ (getD_mem hc) d hd
  · rw [List.getD_eq_default _ _ (by omega)] at hd
    cases hd

theorem WF_set {g : Grid} {c : Nat} {x : List Nat} (hw : WFGrid g)
    (hx : ∀ d ∈ x, 1 ≤ d ∧ d ≤ 9) : WFGrid (g.set c x) := by
  refine ⟨by rw [List.length_set]; exact hw.1, ?_⟩
  intro v hv
  rcases List.mem_or_eq_of_mem_set hv with hv' | rfl
  · exact hw.2 v hv'
  · exact hx

theorem nonempty_set {g : Grid} {c : Nat} {x : List Nat}
    (hg : ∀ v ∈ g, v ≠ []) (hx : x ≠ []) : ∀ v ∈ g.set c x, v ≠ [] := by
  intro v hv
  rcases List.mem_or_eq_of_mem_set hv with hv' | rfl
  · exact hg v hv'
  · exact hx

/-- If `simplify` reports `true`, the final grid is a well-formed, fully
determined, constraint-respecting solution. -/
theorem simplify_true_sound {g g' : Grid} (hw : WFGrid g)
    (h : simplify g = some (true, g')) :
    WFGrid g' ∧ (∀ v ∈ g', v.length = 1) ∧ areasOnce g' := by
  have hw' := simplify_WF hw h
  rcases simplify_eq_some h with ⟨hb, hsub, hfix⟩
  have hc81 : complexity g' = 81 := solved_iff.1 hb.symm
  rcases hfix with ⟨hc0, rfl⟩ | hfix
  · rw [hc0] at hc81
    cases hc81
  · have hareas := processAreasGo_fix hfix
    rcases fixpoint_sound hw'.1 hw'.2 hareas hc81 with ⟨h1, h2⟩
    exact ⟨hw', h1, h2⟩

/-! ### The branch-cell scan -/

theorem scanGo_mem {l : List (Nat × List Nat)} (hl : l ≠ []) (i : Nat) :
    scanGo l i ∈ l := by
  induction l with
  | nil => cases hl rfl
  | cons p t ih =>
    rcases t with _ | ⟨q, ps⟩
    · simp [scanGo]
    · simp only [scanGo]
      split
      · exact List.mem_cons_self _ _
      · exact List.mem_cons_of_mem _ (ih (by simp))

theorem mem_enum_getD {g : Grid} {c : Nat} {v : List Nat}
    (h : (c, v) ∈ g.enum) : g.getD c [] = v := by
  have h' : g[c]? = some v := by
    have := List.mem_enum_iff_getElem?.1 h
    exact this
  rw [List.getD_eq_getElem?_getD, h']
  rfl

theorem scan_getD (g : Grid) (i : Nat) :
    (scan g i).2 = g.getD (scan g i).1 [] := by
  rcases g with _ | ⟨v, t⟩
  · rfl
  · have hmem := scanGo_mem (l := (v :: t).enum) (by simp) i
    rcases hp : scanGo ((v :: t).enum) i with ⟨c, w⟩
    rw [hp] at hmem
    have := mem_enum_getD hmem
    simp only [scan, hp]
    exact this.symm

/-! ### Unfolding equations for `solveAux` and `solveLoop` -/

theorem solveAux_zero (g : Grid) : solveAux 0 g = (.out, []) := by
  rw [solveAux]

theorem solveAux_succ (n : Nat) (g : Grid) :
    solveAux (n + 1) g =
      match simplify g with
      | none => (.contra, [])
      | some (true, g₁) => (.done true g₁, [])
      | some (false, g₁) => solveLoop n g₁ 0 [] [2, 3, 4, 5, 6, 7, 8, 9] := by
  rw [solveAux]

theorem solveLoop_nil_nil (n : Nat) (g : Grid) (cell : Nat) :
    solveLoop n g cell [] [] = (.done (solved g) g, []) := by
  rw [solveLoop]

theorem solveLoop_scan (n : Nat) (g : Grid) (cell : Nat) (i : Nat)
    (is : List Nat) :
    solveLoop n g cell [] (i :: is) =
      solveLoop n g (scan g i).1 (scan g i).2 is := by
  rw [solveLoop]

theorem solveLoop_cons (n : Nat) (g : Grid) (cell : Nat) (o : Nat)
    (os is : List Nat) :
    solveLoop n g cell (o :: os) is =
      match solveAux n (g.set cell [o]) with
      | (.done true t, l) => (.done true t, (cell, o) :: l)
      | (.done false _, l) =>
        ((solveLoop n g cell os is).1,
          (cell, o) :: (l ++ (solveLoop n g cell os is).2))
      | (.out, l) => (.out, (cell, o) :: l)
      | (.contra, l) =>
        match simplify
            (g.set cell ((g.getD cell []).filter (fun d => decide (d ≠ o)))) with
        | none => (.contra, (cell, o) :: l)
        | some (true, g₂) => (.done true g₂, (cell, o) :: l)
        | some (false, g₂) =>
          ((solveLoop n g₂ cell os is).1,
            (cell, o) :: (l ++ (solveLoop n g₂ cell os is).2)) := by
  rw [solveLoop]

/-! ### `solve` never returns a grid with an empty cell -/

theorem complexity_ne_zero_of_nonempty {g : Grid} (hlen : g.length = 81)
    (hne : ∀ v ∈ g, v ≠ []) : complexity g ≠ 0 := by
  intro h0
  have h1 : (0 : Nat) < g.length := by omega
  have := hne _ (getD_mem h1)
  exact this (complexity_eq_zero.1 h0 _ (getD_mem h1))

theorem complexity_set_ne_zero {g : Grid} {c : Nat} {x : List Nat}
    (hlen : g.length = 81) (hne : ∀ v ∈ g, v ≠ []) :
    complexity (g.set c x) ≠ 0 := by
  intro h0
  have hall := complexity_eq_zero.1 h0
  have key : ∀ i, c ≠ i → i < 81 → False := by
    intro i hic hi81
    have hilen : i < (g.set c x).length := by
      rw [List.length_set]; omega
    have hmem : (g.set c x).getD i [] ∈ g.set c x := getD_mem hilen
    have hval : (g.set c x).getD i [] = g.getD i [] := getD_set_ne x hic
    have hmemg : g.getD i [] ∈ g := getD_mem (by omega)
    exact hne _ hmemg (hval ▸ hall _ hmem)
  by_cases hc : c = 0
  · exact key 1 (by omega) (by omega)
  · exact key 0 (by omega) (by omega)

theorem simplify_length {g : Grid} {b : Bool} {g' : Grid}
    (h : simplify g = some (b, g')) : g'.length = g.length :=
  (simplify_eq_some h).2.1.length_eq

/-- Non-emptiness is preserved through the branching loop of `solve`; `IH`
is the same preservation statement for the recursive `solveAux` calls. -/
theorem solveLoop_nonempty (n : Nat)
    (IH : ∀ g (b : Bool) g', g.length = 81 → (∀ v ∈ g, v ≠ []) →
      (solveAux n g).1 = .done b g' → g'.length = 81 ∧ ∀ v ∈ g', v ≠ []) :
    ∀ (is os : List Nat) (g : Grid) (cell : Nat) (b : Bool) (g' : Grid),
      g.length = 81 → (∀ v ∈ g, v ≠ []) →
      (solveLoop n g cell os is).1 = .done b g' →
      g'.length = 81 ∧ ∀ v ∈ g', v ≠ [] := by
  intro is
  induction is with
  | nil =>
    intro os
    induction os with
    | nil =>
      intro g cell b g' hlen hne h
      rw [solveLoop_nil_nil] at h
      cases h
      exact ⟨hlen, hne⟩
    | cons o os ih =>
      intro g cell b g' hlen hne h
      rw [solveLoop_cons] at h
      rcases ht : solveAux n (g.set cell [o]) with ⟨res, l⟩
      rw [ht] at h
      rcases res with _ | _ | ⟨bt, t⟩
      · cases h
      · rcases hs : simplify
            (g.set cell ((g.getD cell []).filter (fun d => decide (d ≠ o)))) with
          _ | ⟨b₂, g₂⟩
        · rw [hs] at h; cases h
        · rw [hs] at h
          have hg₂len : g₂.length = 81 := by
            rw [simplify_length hs, List.length_set]; exact hlen
          have hg₂ne : ∀ v ∈ g₂, v ≠ [] :=
            simplify_nonempty (by rw [List.length_set]; exact hlen) hs
              (complexity_set_ne_zero hlen hne)
          rcases b₂ with _ | _
          · exact ih g₂ cell b g' hg₂len hg₂ne h
          · cases h
            exact ⟨hg₂len, hg₂ne⟩
      · rcases bt with _ | _
        · exact ih g cell b g' hlen hne h
        · cases h
          exact IH (g.set cell [o]) true g' (by rw [List.length_set]; exact hlen)
            (nonempty_set hne (by simp)) (by rw [ht])
  | cons i is ihis =>
    intro os
    induction os with
    | nil =>
      intro g cell b g' hlen hne h
      rw [solveLoop_scan] at h
      exact ihis (scan g i).2 g (scan g i).1 b g' hlen hne h
    | cons o os ih =>
      intro g cell b g' hlen hne h
      rw [solveLoop_cons] at h
      rcases ht : solveAux n (g.set cell [o]) with ⟨res, l⟩
      rw [ht] at h
      rcases res with _ | _ | ⟨bt, t⟩
      · cases h
      · rcases hs : simplify
            (g.set cell ((g.getD cell []).filter (fun d => decide (d ≠ o)))) with
          _ | ⟨b₂, g₂⟩
        · rw [hs] at h; cases h
        · rw [hs] at h
          have hg₂len : g₂.length = 81 := by
            rw [simplify_length hs, List.length_set]; exact hlen
          have hg₂ne : ∀ v ∈ g₂, v ≠ [] :=
            simplify_nonempty (by rw [List.length_set]; exact hlen) hs
              (complexity_set_ne_zero hlen hne)
          rcases b₂ with _ | _
          · exact ih g₂ cell b g' hg₂len hg₂ne h
          · cases h
            exact ⟨hg₂len, hg₂ne⟩
      · rcases bt with _ | _
        · exact ih g cell b g' hlen hne h
        · cases h
          exact IH (g.set cell [o]) true g' (by rw [List.length_set]; exact hlen)
            (nonempty_set hne (by simp)) (by rw [ht])

/-- `solve` returning normally from an 81-cell grid with no empty cell
yields a grid with no empty cell. -/
theorem solveAux_nonempty :
    ∀ (n : Nat) (g : Grid) (b : Bool) (g' : Grid),
      g.length = 81 → (∀ v ∈ g, v ≠ []) → (solveAux n g).1 = .done b g' →
      g'.length = 81 ∧ ∀ v ∈ g', v ≠ [] := by
  intro n
  induction n with
  | zero =>
    intro g b g' _ _ h
    rw [solveAux_zero] at h
    cases h
  | succ n ih =>
    intro g b g' hlen hne h
    rw [solveAux_succ] at h
    rcases hs : simplify g with _ | ⟨b₁, g₁⟩
    · rw [hs] at h; cases h
    · rw [hs] at h
      have hc : complexity g ≠ 0 := complexity_ne_zero_of_nonempty hlen hne
      have hg₁len : g₁.length = 81 := by rw [simplify_length hs]; exact hlen
      have hg₁ne : ∀ v ∈ g₁, v ≠ [] := simplify_nonempty hlen hs hc
      rcases b₁ with _ | _
      · exact solveLoop_nonempty n ih _ _ g₁ 0 b g' hg₁len hg₁ne h
      · cases h
        exact ⟨hg₁len, hg₁ne⟩

/-- Soundness is preserved through the branching loop of `solve`: whenever
the loop reports `True`, the adopted grid is a valid complete solution.
`IH` is the same statement for the recursive `solveAux` calls; the loop is
only ever entered with a stalled (`solved() = False`) grid, so its final
`return self.solved()` cannot produce `True`. -/
theorem solveLoop_sound (n : Nat)
    (IH : ∀ g g', WFGrid g → (solveAux n g).1 = .done true g' →
      WFGrid g' ∧ (∀ v ∈ g', v.length = 1) ∧ areasOnce g') :
    ∀ (is os : List Nat) (g : Grid) (cell : Nat) (g' : Grid),
      WFGrid g → solved g = false → (∀ d ∈ os, 1 ≤ d ∧ d ≤ 9) →
      (solveLoop n g cell os is).1 = .done true g' →
      WFGrid g' ∧ (∀ v ∈ g', v.length = 1) ∧ areasOnce g' := by
  intro is
  induction is with
  | nil =>
    intro os
    induction os with
    | nil =>
      intro g cell g' hw hst hos h
      rw [solveLoop_nil_nil] at h
      injection h with h1 h2
      rw [hst] at h1
      cases h1
    | cons o os ih =>
      intro g cell g' hw hst hos h
      rw [solveLoop_cons] at h
      rcases ht : solveAux n (g.set cell [o]) with ⟨res, l⟩
      rw [ht] at h
      rcases res with _ | _ | ⟨bt, t⟩
      · cases h
      · rcases hs : simplify
            (g.set cell ((g.getD cell []).filter (fun d => decide (d ≠ o)))) with
          _ | ⟨b₂, g₂⟩
        · rw [hs] at h; cases h
        · rw [hs] at h
          have hwfs : WFGrid (g.set cell
              ((g.getD cell []).filter (fun d => decide (d ≠ o)))) :=
            WF_set hw (fun d hd =>
              WF_getD_digits hw cell d (List.mem_of_mem_filter hd))
          rcases b₂ with _ | _
          · have hw₂ : WFGrid g₂ := simplify_WF hwfs hs
            have hst₂ : solved g₂ = false := ((simplify_eq_some hs).1).symm
            exact ih g₂ cell g' hw₂ hst₂
              (fun d hd => hos d (List.mem_cons_of_mem _ hd)) h
          · cases h
            exact simplify_true_sound hwfs hs
      · rcases bt with _ | _
        · exact ih g cell g' hw hst
            (fun d hd => hos d (List.mem_cons_of_mem _ hd)) h
        · cases h
          have hwt : WFGrid (g.set cell [o]) :=
            WF_set hw (by
              intro d hd
              exact hos d (List.mem_cons.2 (Or.inl (List.mem_singleton.1 hd))))
          exact IH (g.set cell [o]) g' hwt (by rw [ht])
  | cons i is ihis =>
    intro os
    induction os with
    | nil =>
      intro g cell g' hw hst hos h
      rw [solveLoop_scan] at h
      refine ihis (scan g i).2 g (scan g i).1 g' hw hst ?_ h
      rw [scan_getD]
      exact WF_getD_digits hw _
    | cons o os ih =>
      intro g cell g' hw hst hos h
      rw [solveLoop_cons] at h
      rcases ht : solveAux n (g.set cell [o]) with ⟨res, l⟩
      rw [ht] at h
      rcases res with _ | _ | ⟨bt, t⟩
      · cases h
      · rcases hs : simplify
            (g.set cell ((g.getD cell []).filter (fun d => decide (d ≠ o)))) with
          _ | ⟨b₂, g₂⟩
        · rw [hs] at h; cases h
        · rw [hs] at h
          have hwfs : WFGrid (g.set cell
              ((g.getD cell []).filter (fun d => decide (d ≠ o)))) :=
            WF_set hw (fun d hd =>
              WF_getD_digits hw cell d (List.mem_of_mem_filter hd))
          rcases b₂ with _ | _
          · have hw₂ : WFGrid g₂ := simplify_WF hwfs hs
            have hst₂ : solved g₂ = false := ((simplify_eq_some hs).1).symm
            exact ih g₂ cell g' hw₂ hst₂
              (fun d hd => hos d (List.mem_cons_of_mem _ hd)) h
          · cases h
            exact simplify_true_sound hwfs hs
      · rcases bt with _ | _
        · exact ih g cell g' hw hst
            (fun d hd => hos d (List.mem_cons_of_mem _ hd)) h
        · cases h
          have hwt : WFGrid (g.set cell [o]) :=
            WF_set hw (by
              intro d hd
              exact hos d (List.mem_cons.2 (Or.inl (List.mem_singleton.1 hd))))
          exact IH (g.set cell [o]) g' hwt (by rw [ht])

/-- Soundness of `solve`: a `True` return from a well-formed grid carries a
fully determined grid in which every area holds each digit exactly once. -/
theorem solveAux_sound :
    ∀ (n : Nat) (g g' : Grid), WFGrid g → (solveAux n g).1 = .done true g' →
      WFGrid g' ∧ (∀ v ∈ g', v.length = 1) ∧ areasOnce g' := by
  intro n
  induction n with
  | zero =>
    intro g g' _ h
    rw [solveAux_zero] at h
    cases h
  | succ n ih =>
    intro g g' hw h
    rw [solveAux_succ] at h
    rcases hs : simplify g with _ | ⟨b₁, g₁⟩
    · rw [hs] at h; cases h
    · rw [hs] at h
      rcases b₁ with _ | _
      · have hw₁ : WFGrid g₁ := simplify_WF hw hs
        have hst₁ : solved g₁ = false := ((simplify_eq_some hs).1).symm
        exact solveLoop_sound n ih _ _ g₁ 0 g' hw₁ hst₁ (by intro d hd; cases hd) h
      · cases h
        exact simplify_true_sound hw hs

/-! ### The per-area rule equals its (amended) specification reading -/

theorem filter_idem {α : Type} {p : α → Bool} (l : List α) :
    (l.filter p).filter p = l.filter p := by
  rw [List.filter_filter]
  simp only [Bool.and_self]

theorem applyNaked_step {v : List Nat} {g : Grid} {loc : Nat}
    {rest : List Nat} :
    applyNaked rest v (elimStep v g loc) = applyNaked (loc :: rest) v g := by
  apply List.ext_getElem?
  intro i
  simp only [applyNaked, List.getElem?_mapIdx]
  by_cases hil : i = loc
  · subst hil
    by_cases hl : i < g.length
    · have hg : g[i]? = some (g.getD i []) := by
        rw [List.getD_eq_getElem?_getD, List.getElem?_eq_getElem hl]
        rfl
      by_cases hcv : g.getD i [] = v
      · have hstep : elimStep v g i = g := by
          simp only [elimStep]
          rw [if_neg (by simpa using hcv)]
        rw [hstep, hg]
        simp only [Option.map_some']
        rw [if_neg (fun h => h.2 hcv), if_neg (fun h => h.2 hcv)]
      · have hstep : elimStep v g i =
            g.set i ((g.getD i []).filter (fun d => decide (d ∉ v))) := by
          simp only [elimStep]
          rw [if_pos hcv]
        rw [hstep, List.getElem?_set, if_pos rfl, if_pos hl, hg]
        simp only [Option.map_some']
        by_cases h2 : i ∈ rest ∧
            (g.getD i []).filter (fun d => decide (d ∉ v)) ≠ v
        · rw [if_pos h2, filter_idem, if_pos ⟨List.mem_cons_self _ _, hcv⟩]
        · rw [if_neg h2, if_pos ⟨List.mem_cons_self _ _, hcv⟩]
    · have hg : g[i]? = none := List.getElem?_eq_none (by omega)
      have hstep : (elimStep v g i)[i]? = none := by
        rw [elimStep]
        split
        · rw [List.getElem?_set, if_pos rfl, if_neg hl]
        · exact hg
      rw [hstep, hg]
      rfl
  · have hstep : (elimStep v g loc)[i]? = g[i]? := by
      rw [elimStep]
      split
      · rw [List.getElem?_set, if_neg (fun h => hil h.symm)]
      · rfl
    rw [hstep]
    rcases g[i]? with _ | cur
    · rfl
    · simp only [Option.map_some']
      have hmem : (i ∈ rest) ↔ (i ∈ loc :: rest) := by
        rw [List.mem_cons]
        exact ⟨Or.inr, fun h => h.resolve_left hil⟩
      by_cases h2 : i ∈ rest ∧ cur ≠ v
      · rw [if_pos h2, if_pos ⟨hmem.1 h2.1, h2.2⟩]
      · rw [if_neg h2, if_neg (fun h => h2 ⟨hmem.2 h.1, h.2⟩)]

theorem eliminate_eq_applyNaked :
    ∀ (a : List Nat) (g : Grid) (v : List Nat),
      eliminate g v a = applyNaked a v g := by
  intro a
  induction a with
  | nil =>
    intro g v
    apply List.ext_getElem?
    intro i
    simp only [applyNaked, List.getElem?_mapIdx, eliminate, List.foldl_nil]
    rcases g[i]? with _ | cur
    · rfl
    · simp
  | cons loc rest ih =>
    intro g v
    have h1 : eliminate g v (loc :: rest) = eliminate (elimStep v g loc) v rest :=
      rfl
    rw [h1, ih, applyNaked_step]

theorem optionsFold_eq_nakedSeq :
    ∀ (entries : List (List Nat × Nat)) (a : List Nat) (g : Grid),
      optionsFold entries a g = nakedSeq entries a g := by
  intro entries
  induction entries with
  | nil => intro a g; rfl
  | cons p rest ih =>
    intro a g
    rcases p with ⟨v, f⟩
    simp only [optionsFold, nakedSeq]
    rcases Nat.lt_trichotomy v.length f with hlt | heq | hgt
    · have h1 : ¬ v.length = f := by omega
      rw [if_neg h1, if_pos hlt, if_pos hlt]
    · have h2 : ¬ v.length < f := by omega
      rw [if_pos heq, if_neg h2, if_pos heq, eliminate_eq_applyNaked, ih]
    · have h1 : ¬ v.length = f := by omega
      have h2 : ¬ v.length < f := by omega
      rw [if_neg h1, if_neg h2, if_neg h2, if_neg h1, ih]

theorem simplifyArea_eq_spec (g : Grid) (a : List Nat) :
    simplifyArea g a = simplifyAreaSpec g a :=
  optionsFold_eq_nakedSeq _ a g

theorem optionsFold_none_iff {entries : List (List Nat × Nat)} {a : List Nat}
    {g : Grid} :
    optionsFold entries a g = none ↔ ∃ p ∈ entries, p.1.length < p.2 := by
  constructor
  · intro h
    induction entries generalizing g with
    | nil => cases h
    | cons p rest ih =>
      rcases p with ⟨v, f⟩
      simp only [optionsFold] at h
      split at h
      · rcases ih h with ⟨q, hq, hql⟩
        exact ⟨q, List.mem_cons_of_mem _ hq, hql⟩
      · split at h
        · rename_i hlt
          exact ⟨(v, f), List.mem_cons_self _ _, hlt⟩
        · rcases ih h with ⟨q, hq, hql⟩
          exact ⟨q, List.mem_cons_of_mem _ hq, hql⟩
  · rintro ⟨⟨v, f⟩, hm, hlt⟩
    exact optionsFold_none_of_mem hm hlt g

/-! ### A doubled digit in a row makes the very first pass raise -/

theorem distinctVals_replicate (n : Nat) (v : List Nat) :
    distinctVals (List.replicate (n + 1) v) = [v] := by
  induction n with
  | zero => simp [distinctVals]
  | succ m ih =>
    rw [List.replicate_succ, distinctVals, ih]
    simp

theorem tally_replicate (n : Nat) (v : List Nat) :
    tally (List.replicate (n + 1) v) = [(v, n + 1)] := by
  rw [tally, distinctVals_replicate]
  simp [List.count_replicate_self]

theorem eliminate_id {g : Grid} {v : List Nat} {a : List Nat}
    (ha : ∀ c ∈ a, g.getD c [] = v) : eliminate g v a = g := by
  induction a with
  | nil => rfl
  | cons loc rest ih =>
    have hstep : elimStep v g loc = g := by
      simp only [elimStep]
      rw [if_neg (by simpa using ha loc (List.mem_cons_self _ _))]
    have h1 : eliminate g v (loc :: rest) = eliminate (elimStep v g loc) v rest :=
      rfl
    rw [h1, hstep]
    exact ih (fun c hc => ha c (List.mem_cons_of_mem _ hc))

/-- An area whose cells all hold the full candidate set is left unchanged:
its single grouped value is exact and eliminates nothing. -/
theorem simplifyArea_full {g : Grid} {a : List Nat}
    (ha : ∀ c ∈ a, g.getD c [] = full9) (hlen : a.length ≤ 9) :
    simplifyArea g a = some g := by
  have hvals : areaVals g a = List.replicate a.length full9 := by
    have h1 : ∀ b ∈ areaVals g a, b = full9 := by
      intro b hb
      rcases List.mem_map.1 hb with ⟨c, hc, rfl⟩
      exact ha c hc
    have h2 := List.eq_replicate_of_mem h1
    have h3 : (areaVals g a).length = a.length := by
      rw [areaVals, List.length_map]
    rw [h3] at h2
    exact h2
  rcases hn : a.length with _ | m
  · have haa : a = [] := List.length_eq_zero.1 hn
    subst haa
    rfl
  · rw [simplifyArea, hvals, hn, tally_replicate]
    simp only [optionsFold]
    have h9 : full9.length = 9 := rfl
    by_cases he : full9.length = m + 1
    · rw [if_pos he, eliminate_id ha]
    · have hnl : ¬ full9.length < m + 1 := by
        rw [h9]; omega
      rw [if_neg he, if_neg hnl]

theorem areaVals_mkTwin_row {r c1 c2 d : Nat} (hr : r < 9) (h1 : c1 < 9)
    (h2 : c2 < 9) :
    areaVals (mkTwin r c1 c2 d) (rowCells r) =
      (List.range 9).map (fun j => if j = c1 ∨ j = c2 then [d] else full9) := by
  rw [areaVals, rowCells, List.map_map]
  refine List.map_congr_left ?_
  intro j hj
  rw [List.mem_range] at hj
  have hlt : 9 * r + j < 81 := by omega
  simp only [Function.comp]
  rw [mkTwin, getD_range_map _ hlt]
  by_cases hc : j = c1 ∨ j = c2
  · rw [if_pos (by omega), if_pos hc]
  · rw [if_neg (by omega), if_neg hc]

theorem countP_pair_range9 :
    ∀ c1, c1 < 9 → ∀ c2, c2 < 9 → c1 ≠ c2 →
      (List.range 9).countP (fun j => decide (j = c1 ∨ j = c2)) = 2 := by
  decide

/-- The row holding the two identical determined digits always raises:
the grouped value `[d]` has size 1 but frequency 2. -/
theorem simplifyArea_mkTwin_row {r c1 c2 d : Nat} (hr : r < 9) (h1 : c1 < 9)
    (h2 : c2 < 9) (hne : c1 ≠ c2) :
    simplifyArea (mkTwin r c1 c2 d) (rowCells r) = none := by
  rw [simplifyArea, areaVals_mkTwin_row hr h1 h2]
  have hmem : [d] ∈ (List.range 9).map
      (fun j => if j = c1 ∨ j = c2 then [d] else full9) :=
    List.mem_map.2 ⟨c1, List.mem_range.2 h1, by rw [if_pos (Or.inl rfl)]⟩
  have hcount : ((List.range 9).map
      (fun j => if j = c1 ∨ j = c2 then [d] else full9)).count [d] = 2 := by
    rw [List.count_eq_countP, List.countP_map]
    have hpt : ∀ j ∈ List.range 9,
        (((fun x => x == [d]) ∘ (fun j => if j = c1 ∨ j = c2 then [d] else full9)) j
            = true) ↔
          ((fun j => decide (j = c1 ∨ j = c2)) j = true) := by
      intro j _
      simp only [Function.comp]
      by_cases hc : j = c1 ∨ j = c2
      · rw [if_pos hc]
        simp [hc]
      · rw [if_neg hc]
        simp [hc, full9]
    rw [List.countP_congr hpt]
    exact countP_pair_range9 c1 h1 c2 h2 hne
  have htm := tally_mem hmem
  rw [hcount] at htm
  exact optionsFold_none_of_mem htm (by simp) _

/-- Areas all of whose cells are untouched full sets process as no-ops. -/
theorem processAreasGo_full_prefix {L rest : List (List Nat)} {g : Grid}
    (hL : ∀ a ∈ L, (∀ c ∈ a, g.getD c [] = full9) ∧ a.length ≤ 9) :
    processAreasGo (L ++ rest) g = processAreasGo rest g := by
  induction L with
  | nil => rfl
  | cons a L ih =>
    rcases hL a (List.mem_cons_self _ _) with ⟨ha, hlen⟩
    rw [List.cons_append, processAreasGo, simplifyArea_full ha hlen]
    exact ih (fun b hb => hL b (List.mem_cons_of_mem _ hb))

theorem allAreas_split {r : Nat} (hr : r < 9) :
    ∃ rest, allAreas = ((List.range r).map rowCells) ++ (rowCells r :: rest) := by
  have hsplit : List.range 9 = List.range r ++ (r :: List.range' (r + 1) (8 - r)) := by
    rw [List.range_eq_range', List.range_eq_range']
    have h9 : (9 : Nat) = (9 - r) + r := by omega
    rw [h9, ← List.range'_append 0 r (9 - r) 1]
    have h1 : 9 - r = (8 - r) + 1 := by omega
    rw [h1, List.range'_succ]
    simp
  refine ⟨(List.range' (r + 1) (8 - r)).map rowCells ++
      ((List.range r ++ (r :: List.range' (r + 1) (8 - r))).map colCells ++
        ((List.range 3).map (fun br =>
          (List.range 3).map (fun bc => boxCells br bc))).flatten), ?_⟩
  rw [allAreas, hsplit, List.map_append, List.map_cons]
  simp [List.append_assoc, List.cons_append]

/-- The first propagation pass on a twin grid raises at the doubled row. -/
theorem processAreas_mkTwin {r c1 c2 d : Nat} (hr : r < 9) (h1 : c1 < 9)
    (h2 : c2 < 9) (hne : c1 ≠ c2) :
    processAreas (mkTwin r c1 c2 d) = none := by
  rcases allAreas_split hr with ⟨rest, hsplit⟩
  rw [processAreas, hsplit, processAreasGo_full_prefix, processAreasGo,
    simplifyArea_mkTwin_row hr h1 h2 hne]
  intro a ha
  rcases List.mem_map.1 ha with ⟨r', hr', rfl⟩
  rw [List.mem_range] at hr'
  constructor
  · intro c hc
    rcases List.mem_map.1 hc with ⟨j, hj, rfl⟩
    rw [List.mem_range] at hj
    have hlt : 9 * r' + j < 81 := by omega
    rw [mkTwin, getD_range_map _ hlt, if_neg (by omega)]
  · rw [rowCells, List.length_map, List.length_range]

/-- `simplify` on a twin grid propagates the exception. -/
theorem simplify_mkTwin {r c1 c2 d : Nat} (hr : r < 9) (h1 : c1 < 9)
    (h2 : c2 < 9) (hne : c1 ≠ c2) : simplify (mkTwin r c1 c2 d) = none := by
  have hc : complexity (mkTwin r c1 c2 d) ≠ 0 := by
    intro h0
    have hlt : 9 * r + c1 < 81 := by omega
    have hmem : (mkTwin r c1 c2 d).getD (9 * r + c1) [] ∈ mkTwin r c1 c2 d := by
      refine getD_mem ?_
      rw [mkTwin, List.length_map, List.length_range]
      omega
    have hval : (mkTwin r c1 c2 d).getD (9 * r + c1) [] = [d] := by
      rw [mkTwin, getD_range_map _ hlt, if_pos (Or.inl rfl)]
    have := complexity_eq_zero.1 h0 _ hmem
    rw [hval] at this
    cases this
  rw [simplify, if_neg hc, loopSimpF_succ, processAreas_mkTwin hr h1 h2 hne]
  rfl

/-! ### The `twinFree` grid drives `solve` into infinite recursion -/

set_option maxRecDepth 100000 in
set_option maxHeartbeats 2000000 in
/-- Propagation from `twinFree` stalls at the fixpoint `gfix`. -/
theorem simplify_twinFree : simplify twinFree = some (false, gfix) := by decide

set_option maxRecDepth 100000 in
/-- `gfix` is its own propagation fixpoint. -/
theorem simplify_gfix : simplify gfix = some (false, gfix) :=
  simplify_idem simplify_twinFree

set_option maxRecDepth 2000 in
/-- No cell of `gfix` has exactly two candidates, so the level-2 scan runs
off the end of the cell iteration: the last item, cell 80 (`'I9'`), already
determined as `[9]`, is selected. -/
theorem scan_gfix : scan gfix 2 = (80, [9]) := by decide

set_option maxRecDepth 2000 in
/-- The trial assignment at the selected cell does not change `gfix`. -/
theorem set_gfix : gfix.set 80 [9] = gfix := by decide

theorem solveLoop_gfix {m : Nat} (hm : (solveAux m gfix).1 = .out) :
    (solveLoop m gfix 0 [] [2, 3, 4, 5, 6, 7, 8, 9]).1 = .out := by
  rw [solveLoop_scan, scan_gfix]
  rw [solveLoop_cons, set_gfix]
  rcases h : solveAux m gfix with ⟨res, l⟩
  rw [h] at hm
  simp only [] at hm
  subst hm
  rfl

/-- The trial copy equals the current grid, so every recursive call receives
the very same state: `solve` on `gfix` consumes any amount of fuel. -/
theorem solveAux_gfix_out : ∀ m, (solveAux m gfix).1 = .out := by
  intro m
  induction m with
  | zero => rw [solveAux_zero]
  | succ m ih =>
    rw [solveAux_succ, simplify_gfix]
    exact solveLoop_gfix ih

/-! ### Construction lemmas -/

theorem construct_eq_none_iff {s : String} :
    construct s = none ↔ (s.toList.filter keepChar).length ≠ 81 := by
  rw [construct]
  split
  · rename_i h
    constructor
    · intro hh
      cases hh
    · intro hne
      exact absurd h hne
  · rename_i h
    exact ⟨fun _ => h, fun _ => rfl⟩

theorem construct_whitespace (s : String) :
    construct s = construct (String.mk (s.toList.filter keepChar)) := by
  rw [construct, construct]
  have h : (String.mk (s.toList.filter keepChar)).toList =
      s.toList.filter keepChar := rfl
  rw [h, filter_idem]

theorem construct_eq_some {s : String} {g : Grid} (h : construct s = some g) :
    g = (s.toList.filter keepChar).map charOptions ∧ g.length = 81 := by
  rw [construct] at h
  split at h
  · rename_i hlen
    cases h
    exact ⟨rfl, by rw [List.length_map]; exact hlen⟩
  · cases h

theorem construct_getD {s : String} {g : Grid} (h : construct s = some g)
    {i : Nat} (hi : i < 81) :
    g.getD i [] = charOptions ((s.toList.filter keepChar).getD i ' ') := by
  rcases construct_eq_some h with ⟨rfl, hlen⟩
  have hp : i < (s.toList.filter keepChar).length := by
    rw [List.length_map] at hlen
    omega
  rw [List.getD_eq_getElem?_getD, List.getElem?_map, List.getElem?_eq_getElem hp,
    List.getD_eq_getElem?_getD, List.getElem?_eq_getElem hp]
  rfl

theorem keepChar_digit {c : Char} (h1 : '1' ≤ c) (h9 : c ≤ '9') :
    keepChar c = true := by
  have h0 : '0' ≤ c := le_trans (by decide) h1
  simp [keepChar, h0, h9]

theorem charOptions_digit {c : Char} (h1 : '1' ≤ c) (h9 : c ≤ '9') :
    charOptions c = [c.toNat - 48] := by
  rw [charOptions, if_neg]
  rintro (rfl | rfl)
  · exact absurd h1 (by decide)
  · exact absurd h1 (by decide)

/-! ### Facts about the concrete demonstration grids -/

set_option maxRecDepth 100000 in
set_option maxHeartbeats 4000000 in
/-- `solvedW` is already solved and consistent: one propagation pass leaves
it unchanged and `simplify` reports `true`. -/
theorem simplify_solvedW : simplify solvedW = some (true, solvedW) := by decide

theorem solveAux_one_solvedW : (solveAux 1 solvedW).1 = .done true solvedW := by
  show (solveAux (0 + 1) solvedW).1 = .done true solvedW
  rw [solveAux_succ, simplify_solvedW]

theorem solveAux_one_twinFree : solveAux 1 twinFree = (.out, [(80, 9)]) := by
  show solveAux (0 + 1) twinFree = (.out, [(80, 9)])
  rw [solveAux_succ, simplify_twinFree]
  show solveLoop 0 gfix 0 [] [2, 3, 4, 5, 6, 7, 8, 9] = (.out, [(80, 9)])
  rw [solveLoop_scan, scan_gfix, solveLoop_cons, set_gfix, solveAux_zero]

set_option maxRecDepth 2000 in
theorem processAreas_gfix : processAreas gfix = some gfix := by
  rcases (simplify_eq_some simplify_gfix).2.2 with ⟨hc, _⟩ | hfix
  · exact absurd hc (by decide)
  · exact hfix

/-! ### The claims -/

/-- Claim C1 (confirmed): for every well-formed 81-cell grid, if `solve`
returns `True` then every cell's candidate set is a singleton and every
row, column and 3x3 box contains each digit `1..9` exactly once, at any
recursion budget. -/
theorem claim_C1 : ∀ (n : Nat) (g g' : Grid), WFGrid g →
    (solveAux n g).1 = .done true g' →
    (∀ v ∈ g', v.length = 1) ∧ areasOnce g' :=
  fun n g g' hw h => ⟨(solveAux_sound n g g' hw h).2.1,
    (solveAux_sound n g g' hw h).2.2⟩

set_option maxRecDepth 10000 in
/-- Witness for claim C1: the solved grid `solvedW` is accepted by `solve`
at fuel 1 and the soundness conclusions hold for it. -/
theorem claim_C1_witness : (∀ v ∈ solvedW, v.length = 1) ∧ areasOnce solvedW :=
  claim_C1 1 solvedW solvedW (by unfold WFGrid; decide) solveAux_one_solvedW

/-- Counterexample to claim C2 as stated: in the row `[1], [2], [1,2],
full, ...`, the value `v = [2]` is exact (size 1, frequency 1) and cell
`A3`'s candidate set `[1,2]` differs from `v`, yet digit 2 is not removed
from `A3` — processing `[1]` first shrank `A3` to `[2]`, which the `[2]`
elimination then spares by its current-value test. -/
theorem claim_C2_counterexample : ¬ NakedSubsetClaim := by
  intro h
  have := h g2 (rowCells 0) sg2 (by decide) [2] (by decide) (by decide)
    2 (by decide) (by decide) 2 (by decide)
  exact this (by decide)

/-- Claim C2 (amended): the per-area pass equals the sequential reading —
distinct values with their pass-start frequencies processed in order, an
exact value eliminating its digits from every cell whose *current* set
differs from it — and the pass raises exactly when some distinct value has
more occurrences than digits. -/
theorem claim_C2 :
    (∀ (g : Grid) (a : List Nat), simplifyArea g a = simplifyAreaSpec g a) ∧
    (∀ (g : Grid) (a : List Nat), simplifyArea g a = none ↔
      ∃ p ∈ tally (areaVals g a), p.1.length < p.2) :=
  ⟨simplifyArea_eq_spec, fun _ _ => optionsFold_none_iff⟩

/-- Claim C3 (confirmed): a grid with two identical determined digits in
one row and every other cell unconstrained always makes `solve` raise the
contradiction: the doubled row is grouped as `[d]` with frequency 2 in the
very first pass. -/
theorem claim_C3 : ∀ (r c1 c2 d n : Nat), r < 9 → c1 < 9 → c2 < 9 →
    c1 ≠ c2 → 1 ≤ d → d ≤ 9 →
    (solveAux (n + 1) (mkTwin r c1 c2 d)).1 = .contra := by
  intro r c1 c2 d n hr h1 h2 hne _ _
  rw [solveAux_succ, simplify_mkTwin hr h1 h2 hne]

/-- Witness for claim C3: two fives in row `A`. -/
theorem claim_C3_witness : (solveAux 1 (mkTwin 0 0 1 5)).1 = .contra :=
  claim_C3 0 0 1 5 0 (by decide) (by decide) (by decide) (by decide)
    (by decide) (by decide)

set_option maxRecDepth 10000 in
/-- Claim C4 (refuted, code bug): on the constructible puzzle `twinStr`
(rows `A..H` empty, row `I` determined), `solve` exhausts every recursion
budget: propagation stalls at `gfix`, no cell has exactly 2 candidates, so
the level-2 scan falls through to the last dict item — cell `I9`, already
determined — and the trial grid equals the current grid, recursing on an
identical state forever.  The claimed depth bound of 81 cannot hold. -/
theorem claim_C4 : construct twinStr = some twinFree ∧
    ∀ n, (solveAux n twinFree).1 = .out := by
  refine ⟨by decide, ?_⟩
  intro n
  cases n with
  | zero => rw [solveAux_zero]
  | succ n =>
    rw [solveAux_succ, simplify_twinFree]
    exact solveLoop_gfix (solveAux_gfix_out n)

/-- Claim C5 (refuted, code bug): after propagation stalls at `gfix`, the
ambiguity levels present are 6 and 8, so the least `k` in `2..9` with a
size-`k` cell is 6; yet the very first trial `solve` makes (the whole log
at fuel 1) is at cell 80, whose candidate set has size 1 — the level-2 scan
found no size-2 cell and kept the last iterated item. -/
theorem claim_C5 : simplify twinFree = some (false, gfix) ∧
    (solveAux 1 twinFree).2 = [(80, 9)] ∧
    (gfix.getD 80 []).length = 1 ∧
    ((gfix.getD 54 []).length = 6 ∧ 54 < 81) ∧
    (∀ k, k < 6 → 2 ≤ k → ∀ c, c < 81 → (gfix.getD c []).length ≠ k) := by
  refine ⟨simplify_twinFree, ?_, by decide, by decide, by decide⟩
  rw [solveAux_one_twinFree]

/-- Counterexample to claim C6 as stated: in the row `[1], [1,2], [1,2],
full, ...` (no empty cell anywhere), processing `[1]` first shrinks the two
`[1,2]` cells to `[2]`; the value `[1,2]` is then exact (size 2, frequency
2) and strips digits 1 and 2 from all three leading cells, which are no
longer equal to `[1,2]` — storing empty candidate sets, while the call
returns normally. -/
theorem claim_C6_counterexample : ¬ NoEmptyStored := by
  intro h
  exact h g6 (rowCells 0) g6after (by decide) (by decide) [] (by decide) rfl

/-- Claim C6 (amended): empty candidate sets can be stored transiently
during a pass, but any later pass over them raises, so whenever `simplify`
returns normally from an 81-cell grid that is not entirely empty — or
`solve` returns normally from an 81-cell grid with no empty cell — every
cell of the result is non-empty. -/
theorem claim_C6 :
    (∀ (g : Grid) (b : Bool) (g' : Grid), g.length = 81 →
      simplify g = some (b, g') → complexity g ≠ 0 → ∀ v ∈ g', v ≠ []) ∧
    (∀ (n : Nat) (g : Grid) (b : Bool) (g' : Grid), g.length = 81 →
      (∀ v ∈ g, v ≠ []) → (solveAux n g).1 = .done b g' →
      ∀ v ∈ g', v ≠ []) :=
  ⟨fun _ _ _ hl hs hc => simplify_nonempty hl hs hc,
   fun n g b g' hl hn h => (solveAux_nonempty n g b g' hl hn h).2⟩

set_option maxRecDepth 10000 in
/-- Witness for claim C6: the stalled `twinFree` run ends with no empty
cell. -/
theorem claim_C6_witness : ∀ v ∈ gfix, v ≠ [] :=
  claim_C6.1 twinFree false gfix (by decide) simplify_twinFree (by decide)

/-- Claim C7 (confirmed): construction fails exactly when the stripped text
does not have 81 characters; it only depends on the stripped text (so
embedded whitespace is immaterial); on success there are 81 cells, each
digit character giving the singleton of its digit and each placeholder
(`'0'` or `'.'`) the full set. -/
theorem claim_C7 :
    (∀ s : String, construct s = none ↔
      (s.toList.filter keepChar).length ≠ 81) ∧
    (∀ s : String,
      construct s = construct (String.mk (s.toList.filter keepChar))) ∧
    (∀ (s : String) (g : Grid), construct s = some g → g.length = 81) ∧
    (∀ (s : String) (g : Grid) (i : Nat) (c : Char), construct s = some g →
      i < 81 → (s.toList.filter keepChar).getD i ' ' = c →
      (('1' ≤ c ∧ c ≤ '9') → g.getD i [] = [c.toNat - 48]) ∧
      ((c = '0' ∨ c = '.') → g.getD i [] = full9)) := by
  refine ⟨fun _ => construct_eq_none_iff, construct_whitespace,
    fun _ _ h => (construct_eq_some h).2, ?_⟩
  intro s g i c h hi hc
  subst hc
  constructor
  · intro hd
    rw [construct_getD h hi, charOptions_digit hd.1 hd.2]
  · intro h0
    rw [construct_getD h hi, charOptions, if_pos h0]

/-- Witness for claim C7: the first cell of the grid built from `demoS`
(whose stripped text starts with the placeholder dot) is the full set. -/
theorem claim_C7_witness : demoG.getD 0 [] = full9 :=
  (claim_C7.2.2.2 demoS demoG 0 '.' (by decide) (by decide) (by decide)).2
    (Or.inr rfl)

/-- Claim C10 (confirmed): both `'.'` and `'0'` survive stripping and give
the full candidate set, every digit `'1'..'9'` survives stripping and gives
its singleton, and the demonstration text `demoS` — a dot, a zero and 79
fives plus whitespace — builds a grid with exactly those cells. -/
theorem claim_C10 : keepChar '.' = true ∧ keepChar '0' = true ∧
    charOptions '.' = full9 ∧ charOptions '0' = full9 ∧
    (∀ c : Char, '1' ≤ c → c ≤ '9' →
      keepChar c = true ∧ charOptions c = [c.toNat - 48]) ∧
    construct demoS = some demoG ∧ demoG.getD 0 [] = full9 ∧
    demoG.getD 1 [] = full9 ∧ demoG.getD 2 [] = [5] := by
  refine ⟨by decide, by decide, by decide, by decide, ?_, by decide,
    by decide, by decide, by decide⟩
  intro c h1 h9
  exact ⟨keepChar_digit h1 h9, charOptions_digit h1 h9⟩

/-- Witness for claim C10: the digit character `'7'`. -/
theorem claim_C10_witness :
    keepChar '7' = true ∧ charOptions '7' = ['7'.toNat - 48] :=
  claim_C10.2.2.2.2.1 '7' (by decide) (by decide)

/-- Claim C8 (confirmed): a second `simplify` immediately after a normal
`simplify` changes nothing — the grid is already a pass fixpoint — and
returns the same boolean. -/
theorem claim_C8 : ∀ (g : Grid) (p : Bool × Grid),
    simplify g = some p → simplify p.2 = some p :=
  fun _ _ h => simplify_idem h

set_option maxRecDepth 100000 in
/-- Witness for claim C8: the stalled `twinFree` run. -/
theorem claim_C8_witness : simplify gfix = some (false, gfix) :=
  claim_C8 twinFree (false, gfix) simplify_twinFree

/-- Claim C9 (confirmed): a propagation pass never increases the total
candidate count, and a normal `simplify` reports `True` exactly when the
final count is 81. -/
theorem claim_C9 :
    (∀ (g g' : Grid), processAreas g = some g' →
      complexity g' ≤ complexity g) ∧
    (∀ (g : Grid) (b : Bool) (g' : Grid), simplify g = some (b, g') →
      (b = true ↔ complexity g' = 81)) := by
  refine ⟨fun _ _ h => processAreas_complexity_le h, ?_⟩
  intro g b g' h
  rw [(simplify_eq_some h).1]
  exact solved_iff

set_option maxRecDepth 2000 in
/-- Witness for claim C9: the pass fixpoint `gfix`. -/
theorem claim_C9_witness : complexity gfix ≤ complexity gfix ∧
    (false = true ↔ complexity gfix = 81) :=
  ⟨claim_C9.1 gfix gfix processAreas_gfix,
   claim_C9.2 gfix false gfix simplify_gfix⟩
